import Mathlib

/-!
Shallow embedding of `src/code/bwt/rust/bwt.rs`, a program that reads one
line from standard input and prints the Burrows-Wheeler transform of it.

Modelling choices:
* A Rust `String`/`&str` is modelled as a `List Char` of its Unicode scalar
  values.  Byte positions are recovered through `Char.utf8Size`, so that the
  byte-indexed slicing `&text[a..b]` of the source (which panics when an index
  is not a character boundary) is modelled faithfully by `Option`-valued
  slicing functions.
* Byte-wise comparison of UTF-8 encoded strings (the `Ord` instance used by
  `vec.sort()` in the source) coincides with code-point-wise lexicographic
  comparison, which `strLe` implements directly on `List Char`.
* `vec.sort()` is a stable sort; a stable sort's output is uniquely
  determined, so the stable `List.insertionSort` is an exact model.
* A panicking `unwrap()` is modelled by propagating `Option.none`.
-/

namespace BWT

/-- The number of bytes of the UTF-8 encoding of `s`; models `text.len()`,
which in Rust is the byte length of the string. -/
def byteLen (s : List Char) : Nat :=
  (s.map Char.utf8Size).sum

/-- Models the Rust slice `&text[0..n]` for a byte index `n`: the list of
characters whose UTF-8 encodings make up the first `n` bytes, or `none` if
`n` is out of bounds or not a character boundary (where Rust panics). -/
def takeBytes : List Char → Nat → Option (List Char)
  | _, 0 => some []
  | [], _ + 1 => none
  | c :: cs, n + 1 =>
    if c.utf8Size ≤ n + 1 then
      (takeBytes cs (n + 1 - c.utf8Size)).map (fun t => c :: t)
    else
      none

/-- Models the Rust slice `&text[n..l]` (`l` the byte length): the characters
after the first `n` bytes, or `none` if `n` is out of bounds or not a
character boundary (where Rust panics). -/
def dropBytes : List Char → Nat → Option (List Char)
  | s, 0 => some s
  | [], _ + 1 => none
  | c :: cs, n + 1 =>
    if c.utf8Size ≤ n + 1 then
      dropBytes cs (n + 1 - c.utf8Size)
    else
      none

/-- Monadic traversal in `Option`: applies `f` to every element, failing as
soon as one application fails.  Models a Rust loop whose body can panic. -/
def traverseOpt (f : α → Option β) : List α → Option (List β)
  | [] => some []
  | x :: xs => do
    let y ← f x
    let ys ← traverseOpt f xs
    pure (y :: ys)

/-- The rotation generator: models the loop
`for n in 0..l { let a = &text[0..n]; let b = &text[n..l]; vec.push([b, a].concat()) }`
of the source, with `l = text.len()` the byte length.  A slicing panic is
modelled by `none`. -/
def rotations (s : List Char) : Option (List (List Char)) :=
  traverseOpt
    (fun n => do
      let a ← takeBytes s n
      let b ← dropBytes s n
      pure (b ++ a))
    (List.range (byteLen s))

/-- Lexicographic comparison of strings by character code, left-to-right,
shorter-is-less on a tie; models the `Ord` instance of Rust `String` used by
`vec.sort()` (byte-wise comparison of UTF-8 data, which orders exactly like
code points). -/
def strLe : List Char → List Char → Bool
  | [], _ => true
  | _ :: _, [] => false
  | a :: as, b :: bs =>
    if a < b then true
    else if b < a then false
    else strLe as bs

/-- `strLe` as a proposition, for use with `List.insertionSort`. -/
def strLeR (a b : List Char) : Prop := strLe a b = true

instance : DecidableRel strLeR := fun a b => instDecidableEqBool (strLe a b) true

/-- The sorter: models `vec.sort()` of the source.  Rust's `sort` is a stable
sort by `Ord`, and a stable sort's output is uniquely determined by the
comparison, so the stable insertion sort is an exact model. -/
def sortStrings (vec : List (List Char)) : List (List Char) :=
  List.insertionSort strLeR vec

/-- The extractor: models the loop
`for v in vec { bwt.push(v.chars().last().unwrap()) }` of the source.  The
`unwrap()` panic on an empty string is modelled by `none`. -/
def lastChars (vec : List (List Char)) : Option (List Char) :=
  traverseOpt (fun v => v.getLast?) vec

/-- The whole transform applied to the already-read-and-trimmed text:
generate rotations, sort them, extract last characters. -/
def bwtOf (text : List Char) : Option (List Char) := do
  let rots ← rotations text
  lastChars (sortStrings rots)

/-- Models Rust `char::is_whitespace`: membership of the code point in the
Unicode `White_Space` set. -/
def isRustWhitespace (c : Char) : Bool :=
  ([0x09, 0x0A, 0x0B, 0x0C, 0x0D, 0x20, 0x85, 0xA0, 0x1680,
    0x2000, 0x2001, 0x2002, 0x2003, 0x2004, 0x2005, 0x2006, 0x2007,
    0x2008, 0x2009, 0x200A, 0x2028, 0x2029, 0x202F, 0x205F, 0x3000] :
    List Nat).contains c.toNat

/-- Models `line.trim_end()` of the source: removes the maximal trailing run
of whitespace characters (Rust `char::is_whitespace`). -/
def trimEnd (s : List Char) : List Char :=
  (s.reverse.dropWhile isRustWhitespace).reverse

/-- Modelled from the spec: the spec says the line is "trimmed of a trailing
line terminator" / "terminated by a newline which is stripped before use".
This definition follows those words exactly — it removes one trailing
newline character and nothing else — so it can be compared with the source's
`trimEnd`. -/
def stripNewlineOnly (s : List Char) : List Char :=
  if s.getLast? = some '\n' then s.dropLast else s

/-- The possible outcomes of the one-shot boundary read
`stdin.lock().read_line(&mut line)` of the source. -/
inductive ReadResult where
  /-- The stream yields a line `s` (terminator included when present). -/
  | line (s : List Char) : ReadResult
  /-- The stream is closed (end of file): Rust `read_line` returns `Ok(0)`
  and leaves the buffer empty; `unwrap()` succeeds. -/
  | eof : ReadResult
  /-- An I/O error: Rust `read_line` returns `Err(_)` and `unwrap()` panics. -/
  | ioError : ReadResult

/-- Models `read_line(..).unwrap()` followed by use of the buffer: the buffer
contents on success, `none` when `unwrap()` panics. -/
def readLine : ReadResult → Option (List Char)
  | .line s => some s
  | .eof => some []
  | .ioError => none

/-- The whole program `main`: read a line (possibly panicking), trim its end,
and compute the BWT.  `none` models abnormal termination (a panic, hence a
non-zero exit status); `some b` models normal termination printing `b`. -/
def runProgram (r : ReadResult) : Option (List Char) := do
  let l ← readLine r
  bwtOf (trimEnd l)

/-- All characters of `s` are single-byte in UTF-8 (i.e. ASCII); under this
condition byte indices and character indices coincide. -/
def asciiOnly (s : List Char) : Prop := ∀ c ∈ s, c.utf8Size = 1

instance (s : List Char) : Decidable (asciiOnly s) :=
  List.decidableBAll _ s

/-- The last character of a nonempty string (`' '` for the empty string); a
total companion to `List.getLast?` used to phrase the extractor's output. -/
def lastD : List Char → Char
  | [] => ' '
  | [c] => c
  | _ :: c :: cs => lastD (c :: cs)

/-! ### Properties of the comparison `strLe` -/

theorem strLe_total : ∀ a b : List Char, strLe a b = true ∨ strLe b a = true
  | [], _ => Or.inl rfl
  | _ :: _, [] => Or.inr rfl
  | a :: as, b :: bs => by
    rcases lt_trichotomy a b with h | h | h
    · left; simp [strLe, h]
    · subst h
      rcases strLe_total as bs with ih | ih
      · left; simp [strLe, ih]
      · right; simp [strLe, ih]
    · right; simp [strLe, h]

theorem strLe_trans : ∀ a b c : List Char,
    strLe a b = true → strLe b c = true → strLe a c = true
  | [], _, _, _, _ => rfl
  | _ :: _, [], _, h, _ => by simp [strLe] at h
  | _ :: _, _ :: _, [], _, h => by simp [strLe] at h
  | a :: as, b :: bs, c :: cs, h1, h2 => by
    simp only [strLe] at h1 h2 ⊢
    rcases lt_trichotomy a b with hab | hab | hab
    · rcases lt_trichotomy b c with hbc | hbc | hbc
      · simp [lt_trans hab hbc]
      · subst hbc; simp [hab]
      · rw [if_neg (lt_asymm hbc), if_pos hbc] at h2; exact absurd h2 (by simp)
    · subst hab
      rw [if_neg (lt_irrefl a), if_neg (lt_irrefl a)] at h1
      rcases lt_trichotomy a c with hac | hac | hac
      · simp [hac]
      · subst hac
        rw [if_neg (lt_irrefl a), if_neg (lt_irrefl a)] at h2 ⊢
        exact strLe_trans as bs cs h1 h2
      · rw [if_neg (lt_asymm hac), if_pos hac] at h2; exact absurd h2 (by simp)
    · rw [if_neg (lt_asymm hab), if_pos hab] at h1; exact absurd h1 (by simp)

theorem isTotal_strLeR : IsTotal (List Char) strLeR := ⟨fun a b => strLe_total a b⟩

theorem isTrans_strLeR : IsTrans (List Char) strLeR := ⟨fun a b c => strLe_trans a b c⟩

/-! ### Generic facts about `traverseOpt` -/

theorem traverseOpt_eq_map {f : α → Option β} {g : α → β} :
    ∀ xs : List α, (∀ x ∈ xs, f x = some (g x)) → traverseOpt f xs = some (xs.map g)
  | [], _ => rfl
  | x :: xs, h => by
    have hx := h x (List.mem_cons_self x xs)
    have ih := traverseOpt_eq_map xs (fun y hy => h y (List.mem_cons_of_mem x hy))
    simp [traverseOpt, hx, ih]

/-! ### Byte-indexed slicing on single-byte strings -/

theorem byteLen_ascii : ∀ {s : List Char}, asciiOnly s → byteLen s = s.length
  | [], _ => rfl
  | c :: cs, h => by
    have hc : c.utf8Size = 1 := h c (List.mem_cons_self c cs)
    have ih := byteLen_ascii (fun d hd => h d (List.mem_cons_of_mem c hd))
    simp only [byteLen, List.map_cons, List.sum_cons, List.length_cons] at *
    omega

theorem takeBytes_ascii : ∀ (s : List Char) (n : Nat), asciiOnly s → n ≤ s.length →
    takeBytes s n = some (s.take n)
  | s, 0, _, _ => by cases s <;> rfl
  | [], _ + 1, _, h => absurd h (by simp)
  | c :: cs, n + 1, ha, h => by
    have hc : c.utf8Size = 1 := ha c (List.mem_cons_self c cs)
    have ih := takeBytes_ascii cs n (fun d hd => ha d (List.mem_cons_of_mem c hd))
      (by simpa using h)
    simp [takeBytes, hc, ih]

theorem dropBytes_ascii : ∀ (s : List Char) (n : Nat), asciiOnly s → n ≤ s.length →
    dropBytes s n = some (s.drop n)
  | s, 0, _, _ => by cases s <;> rfl
  | [], _ + 1, _, h => absurd h (by simp)
  | c :: cs, n + 1, ha, h => by
    have hc : c.utf8Size = 1 := ha c (List.mem_cons_self c cs)
    have ih := dropBytes_ascii cs n (fun d hd => ha d (List.mem_cons_of_mem c hd))
      (by simpa using h)
    simp [dropBytes, hc, ih]

theorem rotations_ascii {s : List Char} (h : asciiOnly s) :
    rotations s = some ((List.range s.length).map fun n => s.drop n ++ s.take n) := by
  unfold rotations
  rw [byteLen_ascii h]
  apply traverseOpt_eq_map
  intro n hn
  have hn' : n ≤ s.length := le_of_lt (List.mem_range.mp hn)
  rw [takeBytes_ascii s n h hn', dropBytes_ascii s n h hn']
  rfl

/-! ### Last characters -/

theorem getLast?_eq_lastD : ∀ {v : List Char}, v ≠ [] → v.getLast? = some (lastD v)
  | [], h => absurd rfl h
  | [_], _ => rfl
  | _ :: c :: cs, _ => by
    rw [List.getLast?_cons_cons]
    exact getLast?_eq_lastD (List.cons_ne_nil c cs)

theorem lastD_cons {v : List Char} (h : v ≠ []) (a : Char) : lastD (a :: v) = lastD v := by
  cases v with
  | nil => exact absurd rfl h
  | cons c cs => rfl

theorem lastD_append : ∀ (x : List Char) {y : List Char}, y ≠ [] →
    lastD (x ++ y) = lastD y
  | [], _, _ => rfl
  | a :: x, y, h => by
    rw [List.cons_append, lastD_cons (by simp [h]) a, lastD_append x h]

theorem dropLast_append_lastD : ∀ {s : List Char}, s ≠ [] → s.dropLast ++ [lastD s] = s
  | [], h => absurd rfl h
  | [_], _ => rfl
  | a :: c :: cs, _ => by
    have ih := dropLast_append_lastD (s := c :: cs) (List.cons_ne_nil c cs)
    rw [List.dropLast_cons₂, lastD_cons (List.cons_ne_nil c cs) a, List.cons_append, ih]

theorem lastChars_eq_map {vec : List (List Char)} (h : ∀ v ∈ vec, v ≠ []) :
    lastChars vec = some (vec.map lastD) :=
  traverseOpt_eq_map vec (fun v hv => getLast?_eq_lastD (h v hv))

theorem map_getD_range (s : List Char) :
    ∀ m : Nat, m ≤ s.length → (List.range m).map (fun k => s.getD k ' ') = s.take m
  | 0, _ => rfl
  | m + 1, h => by
    have hm : m < s.length := h
    rw [List.range_succ, List.map_append, map_getD_range s m (le_of_lt hm),
      List.take_succ, List.getElem?_eq_getElem hm]
    simp [List.getD_eq_getElem?_getD, List.getElem?_eq_getElem hm]

/-- The last characters of the rotations of a nonempty `s`, in generation
order, are a permutation of `s` itself. -/
theorem lastD_rotations {s : List Char} (hne : s ≠ []) :
    List.Perm (((List.range s.length).map fun n => s.drop n ++ s.take n).map lastD) s := by
  obtain ⟨m, hm⟩ : ∃ m, s.length = m + 1 :=
    Nat.exists_eq_succ_of_ne_zero (by simpa using hne)
  rw [List.map_map, hm, List.range_succ_eq_map, List.map_cons, List.map_map]
  have hhead : (lastD ∘ fun n => s.drop n ++ s.take n) 0 = lastD s := by
    simp [Function.comp]
  have htail :
      (List.range m).map ((lastD ∘ fun n => s.drop n ++ s.take n) ∘ Nat.succ) = s.take m := by
    rw [← map_getD_range s m (by omega)]
    apply List.map_congr_left
    intro k hk
    have hkm : k < m := List.mem_range.mp hk
    have hk' : k < s.length := by omega
    have htk : s.take (k + 1) = s.take k ++ [s.getD k ' '] := by
      rw [List.take_succ, List.getElem?_eq_getElem hk']
      simp [List.getD_eq_getElem?_getD, List.getElem?_eq_getElem hk']
    have hne' : s.take (k + 1) ≠ [] := by
      rw [htk]; simp
    simp only [Function.comp, Nat.succ_eq_add_one]
    rw [lastD_append _ hne', htk, lastD_append _ (by simp)]
    rfl
  rw [hhead, htail]
  have htake : s.take m = s.dropLast := by
    rw [List.dropLast_eq_take, hm, Nat.add_sub_cancel]
  rw [htake]
  have hperm : List.Perm (lastD s :: s.dropLast) (s.dropLast ++ [lastD s]) :=
    (List.perm_append_singleton _ _).symm
  rw [dropLast_append_lastD hne] at hperm
  exact hperm

/-! ## Claim theorems -/

/-- C1 (counterexample): the rotation generator does not produce `l`
rotations for every string.  For the one-character string `"é"` (UTF-8 byte
length 2) the slice `&text[0..1]` hits a non-boundary byte index and the
generator panics, modelled by `rotations ['é'] = none`. -/
theorem rotations_multibyte_counterexample :
    ['é'].length = 1 ∧ byteLen ['é'] = 2 ∧ rotations ['é'] = none := by decide

/-- C1 (amended): for every string whose characters are all single-byte in
UTF-8, the rotation generator produces exactly `l` rotations, where rotation
`n` is `S[n:l] + S[0:n]`, and each rotation has length `l`; for `l = 0` it
produces the empty sequence (the `List.range 0` index list is empty). -/
theorem rotations_ascii_spec (s : List Char) (h : asciiOnly s) :
    rotations s = some ((List.range s.length).map fun n => s.drop n ++ s.take n)
    ∧ ((List.range s.length).map fun n => s.drop n ++ s.take n).length = s.length
    ∧ ∀ v ∈ (List.range s.length).map fun n => s.drop n ++ s.take n,
        v.length = s.length := by
  refine ⟨rotations_ascii h, by simp, ?_⟩
  intro v hv
  simp only [List.mem_map, List.mem_range] at hv
  obtain ⟨n, hn, rfl⟩ := hv
  simp only [List.length_append, List.length_drop, List.length_take]
  omega

/-- Witness for C1 at the concrete input `"ab"`. -/
theorem rotations_ascii_spec_witness :
    rotations "ab".toList
        = some ((List.range "ab".toList.length).map
            fun n => "ab".toList.drop n ++ "ab".toList.take n)
    ∧ ((List.range "ab".toList.length).map
        fun n => "ab".toList.drop n ++ "ab".toList.take n).length = "ab".toList.length
    ∧ ∀ v ∈ (List.range "ab".toList.length).map
        fun n => "ab".toList.drop n ++ "ab".toList.take n,
        v.length = "ab".toList.length :=
  rotations_ascii_spec "ab".toList (by decide)

/-- C2 (counterexample): for the non-empty input `"é"` the program panics in
the rotation generator and produces no BWT output at all, so no output with
the input's character multiset exists. -/
theorem bwtOf_multibyte_counterexample :
    ['é'] ≠ [] ∧ bwtOf ['é'] = none := by decide

/-- C2 (amended): for every non-empty input whose characters are all
single-byte in UTF-8, the program produces a BWT output whose multiset of
characters equals the multiset of characters of the input. -/
theorem bwtOf_perm_ascii (s : List Char) (h : asciiOnly s) (hne : s ≠ []) :
    ∃ B, bwtOf s = some B ∧ Multiset.ofList B = Multiset.ofList s := by
  have hrot := rotations_ascii h
  have hmem : ∀ v ∈ sortStrings ((List.range s.length).map
      fun n => s.drop n ++ s.take n), v ≠ [] := by
    intro v hv
    have hv' : v ∈ (List.range s.length).map fun n => s.drop n ++ s.take n :=
      (List.perm_insertionSort strLeR _).mem_iff.mp hv
    simp only [List.mem_map, List.mem_range] at hv'
    obtain ⟨n, hn, rfl⟩ := hv'
    have : s.length ≠ 0 := by simpa using hne
    simp only [ne_eq, ← List.length_eq_zero, List.length_append, List.length_drop,
      List.length_take]
    omega
  refine ⟨(sortStrings ((List.range s.length).map
      fun n => s.drop n ++ s.take n)).map lastD, ?_, ?_⟩
  · unfold bwtOf
    rw [hrot, Option.bind_eq_bind, Option.some_bind, lastChars_eq_map hmem]
  · have p1 : List.Perm ((sortStrings ((List.range s.length).map
        fun n => s.drop n ++ s.take n)).map lastD)
        (((List.range s.length).map fun n => s.drop n ++ s.take n).map lastD) :=
      (List.perm_insertionSort strLeR _).map lastD
    exact Multiset.coe_eq_coe.mpr (p1.trans (lastD_rotations hne))

/-- Witness for C2 at the concrete input `"ab"`. -/
theorem bwtOf_perm_ascii_witness :
    ∃ B, bwtOf "ab".toList = some B
      ∧ Multiset.ofList B = Multiset.ofList "ab".toList :=
  bwtOf_perm_ascii "ab".toList (by decide) (by decide)

/-- C3: the sorter produces a permutation of its input that is sorted under
the total character-code ordering `strLeR`: every adjacent pair is related by
it (and in fact every pair, `Pairwise`). -/
theorem sortStrings_sorted_perm (R : List (List Char)) :
    List.Perm (sortStrings R) R
    ∧ List.Pairwise strLeR (sortStrings R)
    ∧ List.Chain' strLeR (sortStrings R) := by
  haveI := isTotal_strLeR
  haveI := isTrans_strLeR
  have hs : List.Sorted strLeR (sortStrings R) := List.sorted_insertionSort strLeR R
  exact ⟨List.perm_insertionSort strLeR R, hs, hs.chain'⟩

/-- C4: given a sequence `R'` whose every element has the length of `R'`
itself (a rotation sequence), the extractor succeeds and produces a string of
the same length whose `i`-th character is the last character of the `i`-th
element; for the empty sequence it yields the empty string without ever
taking a last character. -/
theorem lastChars_spec (R : List (List Char)) (h : ∀ v ∈ R, v.length = R.length) :
    ∃ B, lastChars R = some B ∧ B.length = R.length
      ∧ ∀ i : Nat, B[i]? = (R[i]?).bind List.getLast? := by
  have hne : ∀ v ∈ R, v ≠ [] := by
    intro v hv
    have hlen := h v hv
    have : R.length ≠ 0 := by
      intro h0
      rw [List.length_eq_zero] at h0
      subst h0
      cases hv
    simp only [ne_eq, ← List.length_eq_zero, hlen]
    exact this
  refine ⟨R.map lastD, lastChars_eq_map hne, by simp, ?_⟩
  intro i
  rw [List.getElem?_map]
  by_cases hi : i < R.length
  · rw [List.getElem?_eq_getElem hi]
    have hmem : R[i] ∈ R := List.getElem_mem hi
    simp [Option.bind, getLast?_eq_lastD (hne _ hmem)]
  · rw [List.getElem?_eq_none (by omega)]
    rfl

/-- Witness for C4 at the concrete sorted rotation sequence
`["ab", "ba"]`. -/
theorem lastChars_spec_witness :
    ∃ B, lastChars [['a', 'b'], ['b', 'a']] = some B
      ∧ B.length = [['a', 'b'], ['b', 'a']].length
      ∧ ∀ i : Nat, B[i]? = ([['a', 'b'], ['b', 'a']][i]?).bind List.getLast? :=
  lastChars_spec [['a', 'b'], ['b', 'a']] (by decide)

/-- C5: the complete `"banana"` scenario — rotations in generation order,
their sorted order, and the final BWT string `"nnbaaa"`. -/
theorem banana_scenario :
    rotations "banana".toList
      = some ["banana".toList, "ananab".toList, "nanaba".toList,
          "anaban".toList, "nabana".toList, "abanan".toList]
    ∧ sortStrings ["banana".toList, "ananab".toList, "nanaba".toList,
          "anaban".toList, "nabana".toList, "abanan".toList]
      = ["abanan".toList, "anaban".toList, "ananab".toList,
          "banana".toList, "nabana".toList, "nanaba".toList]
    ∧ bwtOf "banana".toList = some "nnbaaa".toList := by decide

/-- C6: the empty input is a valid path — zero rotations, empty BWT, and the
full program run on a bare newline line terminates normally with the empty
result (no `none`, which would model a panic). -/
theorem empty_input_valid :
    rotations [] = some []
    ∧ bwtOf [] = some []
    ∧ runProgram (ReadResult.line ['\n']) = some [] := by decide

/-- C7 (counterexample): slicing can fail for a valid index.  For
`S = "é"` the loop bound is `byteLen = 2`, and at `n = 1` both
`&text[0..n]` and `&text[n..l]` panic (byte 1 is not a character
boundary). -/
theorem slicing_multibyte_counterexample :
    1 < byteLen ['é'] ∧ takeBytes ['é'] 1 = none ∧ dropBytes ['é'] 1 = none := by
  decide

/-- C7 (amended): for a string of single-byte characters, the slicing
operations `S[0:n]` and `S[n:l]` never fail for any `n ≤ l`. -/
theorem slicing_ascii_safe (s : List Char) (n : Nat) (h : asciiOnly s)
    (hn : n ≤ byteLen s) :
    takeBytes s n = some (s.take n) ∧ dropBytes s n = some (s.drop n) := by
  rw [byteLen_ascii h] at hn
  exact ⟨takeBytes_ascii s n h hn, dropBytes_ascii s n h hn⟩

/-- Witness for C7 at the concrete input `"ab"`, `n = 1`. -/
theorem slicing_ascii_safe_witness :
    takeBytes "ab".toList 1 = some ("ab".toList.take 1)
    ∧ dropBytes "ab".toList 1 = some ("ab".toList.drop 1) :=
  slicing_ascii_safe "ab".toList 1 (by decide) (by decide)

/-- C8 (counterexample): the transformed string is not the line with only
its trailing newline stripped.  For the line `"ab \n"` the source's
`trim_end()` also removes the trailing space, while stripping only the line
terminator would keep it. -/
theorem trimEnd_newline_counterexample :
    trimEnd ("ab \n".toList) = "ab".toList
    ∧ stripNewlineOnly ("ab \n".toList) = "ab ".toList
    ∧ trimEnd ("ab \n".toList) ≠ stripNewlineOnly ("ab \n".toList) := by decide

/-- C8 (amended): the transformed string is the line with its maximal
trailing run of whitespace characters removed (which includes, but is not
limited to, the trailing newline): the removed characters are all whitespace
and nothing before them is removed. -/
theorem trimEnd_whitespace_spec (line : List Char) :
    line = trimEnd line ++ (line.reverse.takeWhile isRustWhitespace).reverse
    ∧ ((line.reverse.takeWhile isRustWhitespace).reverse).all isRustWhitespace
        = true := by
  constructor
  · conv_lhs => rw [← line.reverse_reverse,
      ← List.takeWhile_append_dropWhile (p := isRustWhitespace) (l := line.reverse),
      List.reverse_append]
    rfl
  · rw [List.all_eq_true]
    intro c hc
    rw [List.mem_reverse] at hc
    exact List.mem_takeWhile_imp hc

/-- C9 (counterexample): a closed stream is not a fatal error.  On end of
file, `read_line` returns `Ok(0)` leaving the buffer empty, `unwrap()`
succeeds, and the program completes normally with the empty BWT — it does
not terminate with a non-zero exit status. -/
theorem runProgram_eof_counterexample :
    runProgram ReadResult.eof = some [] ∧ runProgram ReadResult.eof ≠ none := by
  decide

/-- C9 (amended): an I/O error on the boundary read makes the program panic
(abnormal, non-zero-exit termination, modelled by `none`) without producing
a BWT result; a closed stream (end of file) instead proceeds on the empty
buffer and terminates normally with the empty BWT. -/
theorem runProgram_read_outcomes :
    runProgram ReadResult.ioError = none
    ∧ runProgram ReadResult.eof = some [] := by decide

/-- C10: the sorter is idempotent — sorting the already-sorted sequence
yields it unchanged. -/
theorem sortStrings_idempotent (R : List (List Char)) :
    sortStrings (sortStrings R) = sortStrings R := by
  haveI := isTotal_strLeR
  haveI := isTrans_strLeR
  exact List.Sorted.insertionSort_eq (List.sorted_insertionSort strLeR R)

end BWT
